import Mathlib

set_option maxRecDepth 40000

/-!
Verification of the cicero event-sourcing core.

This file gives a shallow embedding of the repository's event store
(`src/infrastructure/persistence/nomad_event.go`), its allocation
projection queries, the run-cancellation service and the Loki log
aggregator (`src/application/service/run.go`), and proves the frozen
specification claims about them.

The database table `nomad_event` is modelled as a list of rows; the SQL
statements executed by the Go code are translated into pure list
operations with the same semantics (filters for `WHERE`, a stable
insertion sort for `ORDER BY`, a correlated `any` for `NOT EXISTS`).
PostgreSQL's `#>>` operator extracts a JSON field *as text*, so the
`ORDER BY create_time ASC` key is the decimal string rendering of the
`CreateTime` number, compared with text ordering; that ordering is
modelled by `textLt` below.
-/

namespace Cicero

/-- Embedded allocation sub-document of an event payload.  `id`, `jobId` and
`createTime` are the fields the SQL paths `{Allocation,ID}`,
`{Allocation,JobID}` and `{Allocation,CreateTime}` extract; `parses` records
whether Go's `json.Unmarshal` of the full sub-document succeeds (the decoded
snapshot is identified with the document itself). -/
structure AllocDoc where
  id : String
  jobId : String
  createTime : Nat
  parses : Bool
deriving DecidableEq

/-- Event payload: either it contains an `Allocation` sub-document or it does
not (in which case the SQL path extractions are NULL). -/
abbrev Payload := Option AllocDoc

/-- Modelled from the spec: the database schema that assigns `uid` is not part
of the sources; the spec says `uid` is a "stable identity, unique;
deduplicates retries of the same logical event (upsert key)".  It is modelled
as the tuple of the immutable columns the `INSERT` supplies, so that retrying
the same logical event produces the same `uid`. -/
abbrev Uid := String × String × String × List String × Nat × Payload

/-- Modelled from the spec: `uid` derivation for an insert. -/
def mkUid (topic ty key : String) (filterKeys : List String) (index : Nat)
    (payload : Payload) : Uid :=
  (topic, ty, key, filterKeys, index, payload)

/-- One persisted row of the `nomad_event` table.  `filterKeys` is the
non-null stored collection. -/
structure EventRow where
  uid : Uid
  topic : String
  ty : String
  key : String
  filterKeys : List String
  index : Nat
  payload : Payload
  handled : Bool
deriving DecidableEq

/-- The `nomad_event` table. -/
abbrev EventTable := List EventRow

/-- Input of `Save`: the fields of `domain.NomadEvent` that the `INSERT`
supplies (`Uid` and `Handled` are outputs, scanned from `RETURNING`). -/
structure NomadEvent where
  topic : String
  ty : String
  key : String
  filterKeys : Option (List String)
  index : Nat
  payload : Payload
deriving DecidableEq

/-- Uid the `INSERT` of `Save` produces for an event: the nil `FilterKeys`
slice has already been replaced by the empty slice at this point. -/
def uidOf (e : NomadEvent) : Uid :=
  mkUid e.topic e.ty e.key (e.filterKeys.getD []) e.index e.payload

/-- Effect of `ON CONFLICT (uid) DO UPDATE SET topic = EXCLUDED.topic` on one
row: the conflicting row's `topic` is overwritten with the excluded (new)
topic, purely so that `RETURNING` yields the persisted `uid` and `handled`. -/
def updTopic (e : NomadEvent) (x : EventRow) : EventRow :=
  if x.uid == uidOf e then { x with topic := e.topic } else x

/-- Row a non-conflicting `INSERT` of `Save` appends; `handled` takes its
schema default `false` and `filter_keys` the normalized (non-null) slice. -/
def freshRow (e : NomadEvent) : EventRow :=
  ⟨uidOf e, e.topic, e.ty, e.key, e.filterKeys.getD [], e.index, e.payload, false⟩

/-- Translation of `nomadEventRepository.Save`:
`INSERT INTO nomad_event ... ON CONFLICT (uid) DO UPDATE SET topic =
EXCLUDED.topic RETURNING uid, handled`.  A nil `FilterKeys` slice is replaced
by the empty slice before the insert.  The result is the new table state
together with the scanned `uid` and `handled`. -/
def Save (tbl : EventTable) (e : NomadEvent) : EventTable × Uid × Bool :=
  match tbl.find? (fun r => r.uid == uidOf e) with
  | some r => (tbl.map (updTopic e), uidOf e, r.handled)
  | none => (tbl ++ [freshRow e], uidOf e, false)

/-- Storage-level errors (connectivity failures and constraint violations).
The pure model never produces one, mirroring the fact that the Go code turns
no row-count condition into an error. -/
abbrev StorageErr := String

/-- Translation of `nomadEventRepository.Update`:
`UPDATE nomad_event SET handled = $2 WHERE uid = $1` executed with `Exec`.
The command tag (number of affected rows) is ignored by the Go code, so a
`uid` that matches no row is not an error. -/
def Update (tbl : EventTable) (uid : Uid) (handled : Bool) :
    Except StorageErr EventTable :=
  .ok (tbl.map (fun r => if r.uid == uid then { r with handled := handled } else r))

section SaveLemmas

/-- Topic rewriting keeps the uid (and every column except topic). -/
lemma updTopic_uid (e : NomadEvent) (x : EventRow) : (updTopic e x).uid = x.uid := by
  unfold updTopic
  by_cases h : x.uid == uidOf e <;> simp [h]

lemma updTopic_handled (e : NomadEvent) (x : EventRow) :
    (updTopic e x).handled = x.handled := by
  unfold updTopic
  by_cases h : x.uid == uidOf e <;> simp [h]

lemma updTopic_idem (e : NomadEvent) (x : EventRow) :
    updTopic e (updTopic e x) = updTopic e x := by
  unfold updTopic
  by_cases h : x.uid == uidOf e <;> simp [h]

lemma save_found {tbl : EventTable} {e : NomadEvent} {r : EventRow}
    (h : tbl.find? (fun x => x.uid == uidOf e) = some r) :
    Save tbl e = (tbl.map (updTopic e), uidOf e, r.handled) := by
  simp [Save, h]

lemma save_fresh {tbl : EventTable} {e : NomadEvent}
    (h : tbl.find? (fun x => x.uid == uidOf e) = none) :
    Save tbl e = (tbl ++ [freshRow e], uidOf e, false) := by
  simp [Save, h]

/-- Searching for an event's uid commutes with the conflict-update map. -/
lemma find?_map_updTopic (tbl : EventTable) (e : NomadEvent) :
    (tbl.map (updTopic e)).find? (fun x => x.uid == uidOf e)
      = ((tbl.find? (fun x => x.uid == uidOf e)).map (updTopic e)) := by
  rw [List.find?_map]
  have hcomp : ((fun x : EventRow => x.uid == uidOf e) ∘ updTopic e)
      = (fun x : EventRow => x.uid == uidOf e) := by
    funext x
    simp [Function.comp, updTopic_uid]
  rw [hcomp]

end SaveLemmas

/-- Claim C2: for every event `e`, calling `Save e` twice in a row yields the
same returned `handled` value (and `uid`) both times and leaves the table of
the first call unchanged — no second row, and every stored field of the
existing row is semantically unchanged; moreover `Save` normalizes an absent
`filter_keys` to the empty collection, behaving exactly as if the empty
collection had been supplied. -/
theorem save_insert_or_fetch (tbl : EventTable) (e : NomadEvent) :
    (Save (Save tbl e).1 e).2.2 = (Save tbl e).2.2 ∧
    (Save (Save tbl e).1 e).2.1 = (Save tbl e).2.1 ∧
    (Save (Save tbl e).1 e).1 = (Save tbl e).1 ∧
    Save tbl { e with filterKeys := none } = Save tbl { e with filterKeys := some [] } := by
  have hsame : Save (Save tbl e).1 e = ((Save tbl e).1, (Save tbl e).2) := by
    cases hfind : tbl.find? (fun x => x.uid == uidOf e) with
    | some r =>
      rw [save_found hfind]
      have hfind2 : (tbl.map (updTopic e)).find? (fun x => x.uid == uidOf e)
          = some (updTopic e r) := by
        rw [find?_map_updTopic, hfind]
        rfl
      rw [save_found hfind2, updTopic_handled]
      have : (tbl.map (updTopic e)).map (updTopic e) = tbl.map (updTopic e) := by
        rw [List.map_map]
        exact List.map_congr_left fun x _ => updTopic_idem e x
      simp only [this]
    | none =>
      rw [save_fresh hfind]
      have hnone : ∀ x ∈ tbl, ¬ ((x.uid == uidOf e) = true) :=
        List.find?_eq_none.mp hfind
      have hfresh : (fun x : EventRow => x.uid == uidOf e) (freshRow e) = true := by
        simp [freshRow]
      have hfind2 : (tbl ++ [freshRow e]).find? (fun x => x.uid == uidOf e)
          = some (freshRow e) := by
        rw [List.find?_append, hfind]
        simp [hfresh]
      rw [save_found hfind2]
      have hmap : (tbl ++ [freshRow e]).map (updTopic e) = tbl ++ [freshRow e] := by
        rw [List.map_append]
        congr 1
        · apply (List.map_congr_left _).trans (List.map_id _)
          intro x hx
          unfold updTopic
          simp [hnone x hx]
        · simp [updTopic, freshRow]
      simp only [hmap]
      rfl
  refine ⟨?_, ?_, ?_, rfl⟩ <;> rw [hsame]

/-- Claim C6 counterexample: `Update` with a `uid` that matches no stored row
returns success (the Go code ignores the `UPDATE 0` command tag), so it does
not fail with a `StorageError` as the claim demands. -/
theorem update_missing_uid_no_error :
    (∀ r ∈ ([] : EventTable), r.uid ≠ mkUid "Allocation" "AllocationUpdated" "k" [] 0 none) ∧
    Update [] (mkUid "Allocation" "AllocationUpdated" "k" [] 0 none) true = .ok [] ∧
    ∀ s, Update [] (mkUid "Allocation" "AllocationUpdated" "k" [] 0 none) true ≠ .error s := by
  refine ⟨by simp, rfl, ?_⟩
  intro s h
  simp [Update] at h

/-- Claim C6 (amended): `Update` always succeeds; it rewrites exactly the
`handled` flag of the rows whose `uid` matches and leaves every other field,
and every non-matching row, untouched.  In particular a `uid` matching no
row is a successful no-op rather than a `StorageError`. -/
theorem update_only_handled (tbl : EventTable) (uid : Uid) (h : Bool) :
    ∃ tbl', Update tbl uid h = .ok tbl' ∧
      List.Forall₂ (fun r r' : EventRow =>
        r'.uid = r.uid ∧ r'.topic = r.topic ∧ r'.ty = r.ty ∧ r'.key = r.key ∧
        r'.filterKeys = r.filterKeys ∧ r'.index = r.index ∧
        r'.payload = r.payload ∧
        r'.handled = (if r.uid = uid then h else r.handled)) tbl tbl' ∧
      ((∀ r ∈ tbl, r.uid ≠ uid) → tbl' = tbl) := by
  refine ⟨_, rfl, ?_, ?_⟩
  · rw [List.forall₂_map_right_iff]
    rw [List.forall₂_same]
    intro x _
    by_cases hx : x.uid = uid <;> simp [hx]
  · intro hnone
    apply (List.map_congr_left _).trans (List.map_id _)
    intro x hx
    have := hnone x hx
    simp [this]

/-- Claim C6 (amended) witness: on a concrete one-row table whose row does
not carry the given `uid`, `Update` succeeds and returns the table
unchanged. -/
theorem update_only_handled_witness :
    ∃ tbl', Update [⟨mkUid "t" "y" "k" [] 1 none, "t", "y", "k", [], 1, none, false⟩]
        (mkUid "Allocation" "AllocationUpdated" "k" [] 0 none) true = .ok tbl' ∧
      tbl' = [⟨mkUid "t" "y" "k" [] 1 none, "t", "y", "k", [], 1, none, false⟩] := by
  obtain ⟨tbl', h1, _, h3⟩ :=
    update_only_handled [⟨mkUid "t" "y" "k" [] 1 none, "t", "y", "k", [], 1, none, false⟩]
      (mkUid "Allocation" "AllocationUpdated" "k" [] 0 none) true
  refine ⟨tbl', h1, h3 ?_⟩
  intro r hr
  rcases List.mem_singleton.mp hr with rfl
  simp [mkUid]

/-! ### Allocation projector

Translation of `getEventAllocationByJobId` and its two public entry points.
The SQL `SELECT` is modelled as filter, stable sort (`ORDER BY`), and the Go
unmarshal loop.  PostgreSQL's `#>>` renders the JSON number `CreateTime` as
its decimal string, and `ORDER BY create_time ASC` therefore compares those
strings with text ordering, which for digit strings is the character-wise
(lexicographic) order modelled by `textLt`. -/

/-- Lexicographic (character-wise) order on character lists: the order
PostgreSQL uses on the extracted digit strings. -/
def textLt : List Char → List Char → Bool
  | [], [] => false
  | [], _ :: _ => true
  | _ :: _, [] => false
  | a :: as, b :: bs => if a < b then true else if b < a then false else textLt as bs

/-- Non-strict text order on strings. -/
def textLe (a b : String) : Bool := !(textLt b.data a.data)

/-- Sort key of the projection query: `payload#>>'{Allocation,CreateTime}'`,
the text rendering of the embedded `CreateTime` number (NULL, modelled as the
empty string, cannot occur on rows that pass the `WHERE` clause). -/
def createTimeText (e : EventRow) : String :=
  match e.payload with
  | some d => toString d.createTime
  | none => ""

/-- Row order of `ORDER BY create_time ASC`. -/
def allocOrder (a b : EventRow) : Prop :=
  textLe (createTimeText a) (createTimeText b) = true

instance decAllocOrder : DecidableRel allocOrder := fun a b =>
  inferInstanceAs (Decidable (textLe (createTimeText a) (createTimeText b) = true))

/-- The `WHERE` clause shared by both projection queries:
`payload#>>'{Allocation,JobID}' = $1 AND topic = 'Allocation' AND type =
'AllocationUpdated'`.  A payload without an `Allocation` document extracts
NULL and fails the comparison. -/
def matchesJob (jobId : String) (e : EventRow) : Bool :=
  (match e.payload with
   | some d => d.jobId == jobId
   | none => false) &&
  e.topic == "Allocation" && e.ty == "AllocationUpdated"

/-- The correlated `EXISTS` subquery of `GetLatestEventAllocationByJobId`:
some event `e2` has a strictly greater `index`, the allocation topic/type,
the same `{Allocation,ID}` as the outer row, and `{Allocation,JobID} = $1`.
NULL extractions fail the comparisons. -/
def superseded (tbl : EventTable) (jobId : String) (e : EventRow) : Bool :=
  tbl.any (fun e2 =>
    decide (e.index < e2.index) &&
    e2.topic == "Allocation" && e2.ty == "AllocationUpdated" &&
    (match e2.payload, e.payload with
     | some d2, some d => d2.id == d.id && d2.jobId == jobId
     | _, _ => false))

/-- Go's `json.Unmarshal` of the extracted `alloc` text of one row; the
decoded `nomad.Allocation` snapshot is identified with the stored
sub-document. -/
def parseAlloc (e : EventRow) : Except String AllocDoc :=
  match e.payload with
  | some d => if d.parses then .ok d else .error "json unmarshal failed"
  | none => .error "alloc extraction is not a string"

/-- The Go loop over the selected rows: unmarshal each row in order and fail
the whole call on the first failure. -/
def parseRows : List EventRow → Except String (List AllocDoc)
  | [] => .ok []
  | e :: es =>
    match parseAlloc e with
    | .error s => .error s
    | .ok d =>
      match parseRows es with
      | .error s => .error s
      | .ok ds => .ok (d :: ds)

/-- Translation of the private Go helper `getEventAllocationByJobId`: filter
by the `WHERE` clause plus the caller's extra condition, sort by the
`create_time` text ascending, then unmarshal every row. -/
def getEventAllocationByJobId (tbl : EventTable) (jobId : String)
    (extra : EventRow → Bool) : Except String (List AllocDoc) :=
  parseRows (List.insertionSort allocOrder
    (tbl.filter (fun e => matchesJob jobId e && extra e)))

/-- Translation of `GetEventAllocationByJobId` (no extra condition). -/
def GetEventAllocationByJobId (tbl : EventTable) (jobId : String) :
    Except String (List AllocDoc) :=
  getEventAllocationByJobId tbl jobId (fun _ => true)

/-- Translation of `GetLatestEventAllocationByJobId`: the extra condition is
`NOT EXISTS` of the correlated subquery. -/
def GetLatestEventAllocationByJobId (tbl : EventTable) (jobId : String) :
    Except String (List AllocDoc) :=
  getEventAllocationByJobId tbl jobId (fun e => !superseded tbl jobId e)

/-- Snapshot documents of the events matching the `WHERE` clause, in table
order: what the projection is expected to return up to order. -/
def allocDocs (tbl : EventTable) (jobId : String) : List AllocDoc :=
  (tbl.filter (fun e => matchesJob jobId e)).filterMap (fun e => e.payload)

/-- Decoded snapshot of a row whose payload is present. -/
def docGet (e : EventRow) : AllocDoc := e.payload.getD ⟨"", "", 0, true⟩

/-- Allocation identity extracted from a row. -/
def allocIdOf (e : EventRow) : Option String := e.payload.map (fun d => d.id)

/-- Order of decoded snapshots induced by the query's text sort key. -/
def docOrder (d d' : AllocDoc) : Prop :=
  textLe (toString d.createTime) (toString d'.createTime) = true

section TextOrder

lemma textLt_nil_right (a : List Char) : textLt a [] = false := by
  cases a <;> rfl

lemma textLt_asymm : ∀ a b : List Char, textLt a b = true → textLt b a = false := by
  intro a
  induction a with
  | nil =>
    intro b hb
    exact textLt_nil_right b
  | cons x as ih =>
    intro b hb
    cases b with
    | nil => simp [textLt] at hb
    | cons y bs =>
      simp only [textLt] at hb ⊢
      by_cases hxy : x < y
      · have hyx : ¬ y < x := lt_asymm hxy
        simp [hxy, hyx]
      · simp only [if_neg hxy] at hb
        by_cases hyx : y < x
        · simp [hyx] at hb
        · simp only [if_neg hyx] at hb ⊢
          simp only [if_neg hxy]
          exact ih bs hb

lemma textLt_false_trans :
    ∀ a b c : List Char, textLt b a = false → textLt c b = false →
      textLt c a = false := by
  intro a
  induction a with
  | nil =>
    intro b c _ _
    exact textLt_nil_right c
  | cons x as ih =>
    intro b c h1 h2
    cases b with
    | nil => simp [textLt] at h1
    | cons y bs =>
      cases c with
      | nil => simp [textLt] at h2
      | cons z cs =>
        simp only [textLt] at h1 h2 ⊢
        by_cases hyx : y < x
        · simp [hyx] at h1
        · simp only [if_neg hyx] at h1
          by_cases hzy : z < y
          · simp [hzy] at h2
          · simp only [if_neg hzy] at h2
            have hxy : x ≤ y := not_lt.mp hyx
            have hyz : y ≤ z := not_lt.mp hzy
            have hzx : ¬ z < x := not_lt.mpr (le_trans hxy hyz)
            simp only [if_neg hzx]
            by_cases hxz : x < z
            · simp [hxz]
            · simp only [if_neg hxz]
              by_cases hxy2 : x < y
              · exact absurd (lt_of_lt_of_le hxy2 hyz) hxz
              · simp only [if_neg hxy2] at h1
                by_cases hyz2 : y < z
                · have hxeq : x = y := le_antisymm hxy (not_lt.mp hxy2)
                  exact absurd (hxeq ▸ hyz2) hxz
                · simp only [if_neg hyz2] at h2
                  exact ih bs cs h1 h2

instance : IsTrans EventRow allocOrder where
  trans a b c hab hbc := by
    unfold allocOrder textLe at hab hbc ⊢
    simp only [Bool.not_eq_true'] at hab hbc ⊢
    exact textLt_false_trans _ _ _ hab hbc

instance : IsTotal EventRow allocOrder where
  total a b := by
    unfold allocOrder textLe
    simp only [Bool.not_eq_true']
    by_cases h : textLt (createTimeText b).data (createTimeText a).data = true
    · exact Or.inr (textLt_asymm _ _ h)
    · exact Or.inl (by simpa using h)

end TextOrder

section StableSort

variable {α : Type} (r : α → α → Prop) [DecidableRel r]

lemma orderedInsert_of_forall {a : α} {l : List α} (h : ∀ x ∈ l, r a x) :
    List.orderedInsert r a l = a :: l := by
  cases l with
  | nil => rfl
  | cons b bs =>
    unfold List.orderedInsert
    rw [if_pos (h b (by simp))]

lemma filter_orderedInsert_pos [IsTrans α r] (p : α → Bool) {a : α} {l : List α}
    (ha : p a = true) (hl : l.Sorted r) :
    (List.orderedInsert r a l).filter p = List.orderedInsert r a (l.filter p) := by
  induction l with
  | nil => simp [List.orderedInsert, ha]
  | cons b bs ih =>
    by_cases hrab : r a b
    · rw [List.orderedInsert, if_pos hrab]
      by_cases hpb : p b = true
      · simp only [List.filter_cons, ha, hpb, if_pos]
        rw [List.orderedInsert, if_pos hrab]
      · have hpb' : p b = false := by simpa using hpb
        simp only [List.filter_cons, ha, hpb', if_pos]
        simp only [Bool.false_eq_true, if_false, if_true]
        rw [orderedInsert_of_forall r]
        intro x hx
        have hbx : r b x :=
          List.rel_of_sorted_cons hl x (List.mem_of_mem_filter hx)
        exact Trans.trans hrab hbx
    · rw [List.orderedInsert, if_neg hrab]
      by_cases hpb : p b = true
      · simp only [List.filter_cons, hpb, if_true, if_pos]
        rw [ih hl.of_cons]
        rw [List.orderedInsert, if_neg hrab]
      · have hpb' : p b = false := by simpa using hpb
        simp only [List.filter_cons, hpb', Bool.false_eq_true, if_false]
        exact ih hl.of_cons

lemma filter_orderedInsert_neg (p : α → Bool) {a : α} {l : List α}
    (ha : p a = false) :
    (List.orderedInsert r a l).filter p = l.filter p := by
  induction l with
  | nil => simp [List.orderedInsert, ha]
  | cons b bs ih =>
    by_cases hrab : r a b
    · rw [List.orderedInsert, if_pos hrab]
      simp [List.filter_cons, ha]
    · rw [List.orderedInsert, if_neg hrab]
      by_cases hpb : p b = true
      · simp only [List.filter_cons, hpb, if_true, if_pos]
        rw [ih]
      · have hpb' : p b = false := by simpa using hpb
        simp only [List.filter_cons, hpb', Bool.false_eq_true, if_false]
        exact ih

/-- Insertion sort is stable, so sorting commutes with filtering. -/
lemma insertionSort_filter [IsTotal α r] [IsTrans α r] (p : α → Bool) (l : List α) :
    List.insertionSort r (l.filter p) = (List.insertionSort r l).filter p := by
  induction l with
  | nil => rfl
  | cons a t ih =>
    by_cases hpa : p a = true
    · simp only [List.filter_cons, hpa, if_true, if_pos, List.insertionSort]
      rw [ih, filter_orderedInsert_pos r p hpa (List.sorted_insertionSort r t)]
    · have hpa' : p a = false := by simpa using hpa
      simp only [List.filter_cons, hpa', Bool.false_eq_true, if_false, List.insertionSort]
      rw [ih, filter_orderedInsert_neg r p hpa']

end StableSort

section ParseRows

lemma parseAlloc_ok_payload {e : EventRow} {d : AllocDoc}
    (h : parseAlloc e = .ok d) : e.payload = some d ∧ d.parses = true := by
  unfold parseAlloc at h
  cases hp : e.payload with
  | none => rw [hp] at h; cases h
  | some d' =>
    rw [hp] at h
    dsimp only at h
    by_cases hpar : d'.parses = true
    · rw [if_pos hpar] at h
      cases h
      exact ⟨rfl, hpar⟩
    · rw [if_neg hpar] at h
      cases h

lemma docGet_of_payload {e : EventRow} {d : AllocDoc} (h : e.payload = some d) :
    docGet e = d := by
  simp [docGet, h]

lemma parseRows_ok : ∀ {l : List EventRow} {res : List AllocDoc},
    parseRows l = .ok res →
    res = l.map docGet ∧ ∀ e ∈ l, parseAlloc e = .ok (docGet e) := by
  intro l
  induction l with
  | nil =>
    intro res h
    simp only [parseRows] at h
    cases h
    simp
  | cons e es ih =>
    intro res h
    simp only [parseRows] at h
    cases hp : parseAlloc e with
    | error s => rw [hp] at h; cases h
    | ok d =>
      rw [hp] at h
      cases hr : parseRows es with
      | error s => rw [hr] at h; cases h
      | ok ds =>
        rw [hr] at h
        cases h
        obtain ⟨h1, h2⟩ := ih hr
        obtain ⟨hpay, _⟩ := parseAlloc_ok_payload hp
        have hd : docGet e = d := docGet_of_payload hpay
        refine ⟨by simp [h1, hd], ?_⟩
        intro x hx
        rcases List.mem_cons.mp hx with rfl | hx2
        · rw [hp, hd]
        · exact h2 x hx2

lemma parseRows_error_of_mem : ∀ {l : List EventRow} {e : EventRow} {s : String},
    e ∈ l → parseAlloc e = .error s → ∃ s', parseRows l = .error s' := by
  intro l
  induction l with
  | nil => intro e s h; cases h
  | cons b bs ih =>
    intro e s hmem herr
    simp only [parseRows]
    cases hb : parseAlloc b with
    | error s2 => exact ⟨s2, rfl⟩
    | ok d =>
      rcases List.mem_cons.mp hmem with rfl | h2
      · rw [hb] at herr; cases herr
      · obtain ⟨s', hs'⟩ := ih h2 herr
        rw [hs']
        exact ⟨s', rfl⟩

lemma parseRows_sublist : ∀ {l l' : List EventRow} {res : List AllocDoc},
    List.Sublist l' l → parseRows l = .ok res →
    ∃ res', parseRows l' = .ok res' ∧ List.Sublist res' res := by
  intro l l' res hsub
  induction hsub generalizing res with
  | slnil =>
    intro h
    exact ⟨res, h, List.Sublist.refl res⟩
  | @cons l₁ l₂ a hsub ih =>
    intro h
    simp only [parseRows] at h
    cases hp : parseAlloc a with
    | error s => rw [hp] at h; cases h
    | ok d =>
      rw [hp] at h
      cases hr : parseRows l₂ with
      | error s => rw [hr] at h; cases h
      | ok ds =>
        rw [hr] at h
        cases h
        obtain ⟨res', h1, h2⟩ := ih hr
        exact ⟨res', h1, h2.cons d⟩
  | @cons₂ l₁ l₂ a hsub ih =>
    intro h
    simp only [parseRows] at h ⊢
    cases hp : parseAlloc a with
    | error s => rw [hp] at h; cases h
    | ok d =>
      rw [hp] at h
      cases hr : parseRows l₂ with
      | error s => rw [hr] at h; cases h
      | ok ds =>
        rw [hr] at h
        cases h
        obtain ⟨res', h1, h2⟩ := ih hr
        rw [h1]
        exact ⟨d :: res', rfl, h2.cons₂ d⟩

end ParseRows

section ProjectorFacts

lemma matchesJob_payload {jobId : String} {e : EventRow}
    (h : matchesJob jobId e = true) : ∃ d, e.payload = some d ∧ d.jobId = jobId := by
  unfold matchesJob at h
  cases hp : e.payload with
  | none => rw [hp] at h; simp at h
  | some d =>
    rw [hp] at h
    simp only [Bool.and_eq_true, beq_iff_eq] at h
    exact ⟨d, rfl, h.1.1⟩

lemma filterMap_payload_eq_map_docGet :
    ∀ {l : List EventRow}, (∀ e ∈ l, ∃ d, e.payload = some d) →
      l.filterMap (fun e => e.payload) = l.map docGet := by
  intro l
  induction l with
  | nil => intro _; rfl
  | cons e es ih =>
    intro h
    obtain ⟨d, hd⟩ := h e (by simp)
    rw [List.filterMap_cons, hd]
    rw [List.map_cons, docGet_of_payload hd, ih fun x hx => h x (List.mem_cons_of_mem e hx)]

lemma createTimeText_of_payload {e : EventRow} {d : AllocDoc}
    (h : e.payload = some d) : createTimeText e = toString d.createTime := by
  simp [createTimeText, h]

end ProjectorFacts

/-- Allocation documents with single-digit and two-digit creation times: the
text rendering of `9` sorts after that of `10`. -/
def c7Doc9 : AllocDoc := ⟨"a1", "j", 9, true⟩

def c7Doc10 : AllocDoc := ⟨"a2", "j", 10, true⟩

/-- Two allocation-update events for job `"j"` whose creation times are `9`
and `10`. -/
def c7Table : EventTable :=
  [⟨mkUid "Allocation" "AllocationUpdated" "" [] 1 (some c7Doc9),
    "Allocation", "AllocationUpdated", "", [], 1, some c7Doc9, false⟩,
   ⟨mkUid "Allocation" "AllocationUpdated" "" [] 2 (some c7Doc10),
    "Allocation", "AllocationUpdated", "", [], 2, some c7Doc10, false⟩]

/-- Claim C7 counterexample: `ORDER BY create_time ASC` sorts the *text*
extraction of `CreateTime`, so the snapshot with creation time `10` is
returned before the one with creation time `9` — the output is not in
numeric ascending order of `CreateTime` as the claim states. -/
theorem get_event_allocation_numeric_order_cex :
    GetEventAllocationByJobId c7Table "j" = .ok [c7Doc10, c7Doc9] ∧
    ¬ List.Sorted (fun d d' : AllocDoc => d.createTime ≤ d'.createTime)
      [c7Doc10, c7Doc9] := by
  constructor
  · rfl
  · intro h
    have h10 := List.rel_of_sorted_cons h c7Doc9 (by simp)
    simp [c7Doc10, c7Doc9] at h10

/-- Claim C7 (amended): `GetEventAllocationByJobId` returns all allocation
snapshots of matching allocation-update events ordered ascending by the
*text rendering* of the payload creation time (the lexicographic order of
the extracted strings, which agrees with numeric order only for renderings
of equal length); a payload parse failure for any matching row makes the
whole call fail with no partial results. -/
theorem get_event_allocation_ordered (tbl : EventTable) (jobId : String)
    (res : List AllocDoc) :
    (GetEventAllocationByJobId tbl jobId = .ok res →
       List.Sorted docOrder res ∧ res.Perm (allocDocs tbl jobId)) ∧
    ((∃ d ∈ allocDocs tbl jobId, d.parses = false) →
       ∃ s, GetEventAllocationByJobId tbl jobId = .error s) := by
  have hbase : GetEventAllocationByJobId tbl jobId
      = parseRows (List.insertionSort allocOrder
          (tbl.filter (fun e => matchesJob jobId e))) := by
    simp only [GetEventAllocationByJobId, getEventAllocationByJobId, Bool.and_true]
  constructor
  · intro hok
    rw [hbase] at hok
    obtain ⟨hres, hall⟩ := parseRows_ok hok
    have hperm := List.perm_insertionSort allocOrder
      (tbl.filter (fun e => matchesJob jobId e))
    constructor
    · rw [hres]
      rw [List.Sorted, List.pairwise_map]
      apply List.Pairwise.imp_of_mem ?_ (List.sorted_insertionSort allocOrder _)
      intro a b ha hb hab
      obtain ⟨da, hda, _⟩ :=
        matchesJob_payload (List.of_mem_filter (hperm.mem_iff.mp ha))
      obtain ⟨db, hdb, _⟩ :=
        matchesJob_payload (List.of_mem_filter (hperm.mem_iff.mp hb))
      unfold allocOrder at hab
      unfold docOrder
      rw [docGet_of_payload hda, docGet_of_payload hdb,
        ← createTimeText_of_payload hda, ← createTimeText_of_payload hdb]
      exact hab
    · rw [hres]
      have heq : allocDocs tbl jobId
          = (tbl.filter (fun e => matchesJob jobId e)).map docGet := by
        unfold allocDocs
        apply filterMap_payload_eq_map_docGet
        intro e he
        obtain ⟨d, hd, _⟩ := matchesJob_payload (List.of_mem_filter he)
        exact ⟨d, hd⟩
      rw [heq]
      exact hperm.map docGet
  · rintro ⟨d, hd, hparse⟩
    unfold allocDocs at hd
    obtain ⟨e, he, hpay⟩ := List.mem_filterMap.mp hd
    have herr : parseAlloc e = .error "json unmarshal failed" := by
      unfold parseAlloc
      rw [hpay]
      dsimp only
      rw [if_neg]
      simp [hparse]
    have hmem : e ∈ List.insertionSort allocOrder
        (tbl.filter (fun e => matchesJob jobId e)) :=
      (List.perm_insertionSort allocOrder _).mem_iff.mpr he
    obtain ⟨s', hs'⟩ := parseRows_error_of_mem hmem herr
    refine ⟨s', ?_⟩
    rw [hbase]
    exact hs'

/-- Allocation document whose embedded JSON does not unmarshal. -/
def c7BadDoc : AllocDoc := ⟨"b", "j", 3, false⟩

def c7BadTable : EventTable :=
  [⟨mkUid "Allocation" "AllocationUpdated" "" [] 1 (some c7BadDoc),
    "Allocation", "AllocationUpdated", "", [], 1, some c7BadDoc, false⟩]

/-- Claim C7 (amended) witness: on concrete tables the projection returns
the text-ordered permutation of the matching snapshots, and a row that
fails to parse fails the whole call. -/
theorem get_event_allocation_ordered_witness :
    (List.Sorted docOrder [c7Doc10, c7Doc9] ∧
      List.Perm [c7Doc10, c7Doc9] (allocDocs c7Table "j")) ∧
    ∃ s, GetEventAllocationByJobId c7BadTable "j" = .error s := by
  constructor
  · exact (get_event_allocation_ordered c7Table "j" [c7Doc10, c7Doc9]).1 rfl
  · exact (get_event_allocation_ordered c7BadTable "j" []).2
      ⟨c7BadDoc, by decide, rfl⟩

/-! ### Nondeterministic rendering of the two projection SELECTs (claim C10)

For a property that compares two separate query executions the deterministic
`List.insertionSort` above is too strong: PostgreSQL's `ORDER BY create_time
ASC` fixes only that the returned rows are sorted by the text key, and leaves
the relative order of rows with equal keys to the engine, independently in
each execution.  The relational rendering below captures exactly that
guarantee: a compliant result arises from some key-sorted permutation of the
rows matching the `WHERE` clause. -/

/-- `res` is one compliant result of the full-history SELECT of
`GetEventAllocationByJobId`: the rows matching the `WHERE` clause, in some
order sorted by the `create_time` text (ties in any order), unmarshalled. -/
def IsEventAllocationResult (tbl : EventTable) (jobId : String)
    (res : List AllocDoc) : Prop :=
  ∃ rows, List.Perm rows (tbl.filter (fun e => matchesJob jobId e)) ∧
    List.Sorted allocOrder rows ∧ parseRows rows = .ok res

/-- `res` is one compliant result of the latest-view SELECT of
`GetLatestEventAllocationByJobId`: same `WHERE` clause further restricted by
the `NOT EXISTS` subquery, again under any `ORDER BY`-compliant row order. -/
def IsLatestEventAllocationResult (tbl : EventTable) (jobId : String)
    (res : List AllocDoc) : Prop :=
  ∃ rows, List.Perm rows
      (tbl.filter (fun e => matchesJob jobId e && !superseded tbl jobId e)) ∧
    List.Sorted allocOrder rows ∧ parseRows rows = .ok res

/-- The deterministic translation realises one compliant execution of the
full-history SELECT. -/
lemma getEvent_sound {tbl : EventTable} {jobId : String} {res : List AllocDoc}
    (h : GetEventAllocationByJobId tbl jobId = .ok res) :
    IsEventAllocationResult tbl jobId res := by
  refine ⟨List.insertionSort allocOrder (tbl.filter (fun e => matchesJob jobId e)),
    List.perm_insertionSort _ _, List.sorted_insertionSort _ _, ?_⟩
  have hbase : GetEventAllocationByJobId tbl jobId
      = parseRows (List.insertionSort allocOrder
          (tbl.filter (fun e => matchesJob jobId e))) := by
    simp only [GetEventAllocationByJobId, getEventAllocationByJobId, Bool.and_true]
  rw [← hbase]
  exact h

/-- The deterministic translation realises one compliant execution of the
latest-view SELECT. -/
lemma getLatest_sound {tbl : EventTable} {jobId : String} {res : List AllocDoc}
    (h : GetLatestEventAllocationByJobId tbl jobId = .ok res) :
    IsLatestEventAllocationResult tbl jobId res :=
  ⟨List.insertionSort allocOrder
      (tbl.filter (fun e => matchesJob jobId e && !superseded tbl jobId e)),
    List.perm_insertionSort _ _, List.sorted_insertionSort _ _, h⟩

/-- Unsuperseded allocation `a` with `CreateTime` 7. -/
def c10DocA : AllocDoc := ⟨"a", "j", 7, true⟩

/-- Unsuperseded allocation `b`, distinct identity, same `CreateTime` 7:
its `create_time` sort key is the same text `"7"` as that of `c10DocA`. -/
def c10DocB : AllocDoc := ⟨"b", "j", 7, true⟩

def c10RowA : EventRow :=
  ⟨mkUid "Allocation" "AllocationUpdated" "" [] 1 (some c10DocA),
    "Allocation", "AllocationUpdated", "", [], 1, some c10DocA, false⟩

def c10RowB : EventRow :=
  ⟨mkUid "Allocation" "AllocationUpdated" "" [] 2 (some c10DocB),
    "Allocation", "AllocationUpdated", "", [], 2, some c10DocB, false⟩

/-- Store holding the latest events of two different allocation identities
whose `CreateTime` texts coincide. -/
def c10Table : EventTable := [c10RowA, c10RowB]

/-- Claim C10 counterexample: with two unsuperseded allocations of different
identities and equal `create_time` texts, `[A, B]` is a compliant result of
the full-history query and `[B, A]` a compliant result of the latest-view
query — both row orders are sorted by the equal keys, and the two executions
are independent — yet `[B, A]` is not a subsequence of `[A, B]`: the latest
view is not guaranteed to be a subsequence of the full history, nor to
preserve its relative order. -/
theorem latest_sublist_cex :
    IsEventAllocationResult c10Table "j" [c10DocA, c10DocB] ∧
    IsLatestEventAllocationResult c10Table "j" [c10DocB, c10DocA] ∧
    ¬ List.Sublist [c10DocB, c10DocA] [c10DocA, c10DocB] := by
  refine ⟨⟨[c10RowA, c10RowB], by decide, by decide, rfl⟩,
    ⟨[c10RowB, c10RowA], by decide, by decide, rfl⟩, ?_⟩
  decide

/-- Claim C10 (amended): for any pair of compliant executions, every snapshot
of the latest view occurs in the full history with its multiplicity (the
latest result is a sub-permutation of the full result), and the latest view
is itself sorted ascending by the `create_time` text; the relative order of
snapshots with equal `create_time` texts need not agree between the two
executions, so a literal subsequence is not guaranteed. -/
theorem latest_subperm_of_history (tbl : EventTable) (jobId : String)
    (res resL : List AllocDoc)
    (hres : IsEventAllocationResult tbl jobId res)
    (hresL : IsLatestEventAllocationResult tbl jobId resL) :
    List.Subperm resL res ∧ List.Sorted docOrder resL := by
  obtain ⟨rows, hp, _, hok⟩ := hres
  obtain ⟨rowsL, hpL, hsL, hokL⟩ := hresL
  obtain ⟨hmap, _⟩ := parseRows_ok hok
  obtain ⟨hmapL, _⟩ := parseRows_ok hokL
  constructor
  · rw [hmap, hmapL]
    have h1 : List.Perm (rowsL.map docGet)
        ((tbl.filter
          (fun e => matchesJob jobId e && !superseded tbl jobId e)).map docGet) :=
      hpL.map docGet
    have h2 : List.Sublist
        ((tbl.filter
          (fun e => matchesJob jobId e && !superseded tbl jobId e)).map docGet)
        ((tbl.filter (fun e => matchesJob jobId e)).map docGet) := by
      apply List.Sublist.map
      have hcomm : (fun e => matchesJob jobId e && !superseded tbl jobId e)
          = (fun a => !superseded tbl jobId a && matchesJob jobId a) := by
        funext a
        exact Bool.and_comm _ _
      rw [hcomm, ← List.filter_filter]
      exact List.filter_sublist _
    have h3 : List.Perm ((tbl.filter (fun e => matchesJob jobId e)).map docGet)
        (rows.map docGet) := (hp.map docGet).symm
    exact h1.subperm.trans (h2.subperm.trans h3.subperm)
  · rw [hmapL]
    rw [List.Sorted, List.pairwise_map]
    apply List.Pairwise.imp_of_mem ?_ hsL
    intro a b ha hb hab
    have hma : matchesJob jobId a = true := by
      have h := List.of_mem_filter (hpL.subset ha)
      rw [Bool.and_eq_true] at h
      exact h.1
    have hmb : matchesJob jobId b = true := by
      have h := List.of_mem_filter (hpL.subset hb)
      rw [Bool.and_eq_true] at h
      exact h.1
    obtain ⟨da, hda, _⟩ := matchesJob_payload hma
    obtain ⟨db, hdb, _⟩ := matchesJob_payload hmb
    unfold allocOrder at hab
    unfold docOrder
    rw [docGet_of_payload hda, docGet_of_payload hdb,
      ← createTimeText_of_payload hda, ← createTimeText_of_payload hdb]
    exact hab

/-- Claim C10 (amended) witness: on the two concrete compliant executions of
the two-allocation store, the latest view `[B, A]` is a sub-permutation of
the history `[A, B]` and is itself sorted by the text key. -/
theorem latest_subperm_of_history_witness :
    List.Subperm [c10DocB, c10DocA] [c10DocA, c10DocB] ∧
    List.Sorted docOrder [c10DocB, c10DocA] :=
  latest_subperm_of_history c10Table "j" [c10DocA, c10DocB] [c10DocB, c10DocA]
    ⟨[c10RowA, c10RowB], by decide, by decide, rfl⟩
    ⟨[c10RowB, c10RowA], by decide, by decide, rfl⟩

/-! ### Latest-per-identity derivation (claim C1) -/

/-- Matching allocation-update rows of one allocation identity for one job:
the rows the correlated subquery ranges over for a given outer row. -/
def idRows (tbl : EventTable) (jobId i : String) : EventTable :=
  tbl.filter (fun e => matchesJob jobId e && (allocIdOf e == some i))

section LatestLemmas

lemma bool_eq_of_iff {a b : Bool} (h : a = true ↔ b = true) : a = b := by
  cases a <;> cases b <;> simp_all

lemma any_congr_mem {β : Type} {l : List β} {f g : β → Bool}
    (h : ∀ x ∈ l, f x = g x) : l.any f = l.any g := by
  induction l with
  | nil => rfl
  | cons a t ih =>
    simp only [List.any_cons]
    rw [h a (by simp), ih fun x hx => h x (List.mem_cons_of_mem a hx)]

/-- The correlated subquery, evaluated on a row of identity `i`, checks
exactly the `idRows` of that identity for a strictly greater index. -/
lemma superseded_eq_any_gt {tbl : EventTable} {jobId i : String}
    {e : EventRow} {d : AllocDoc} (hpay : e.payload = some d) (hid : d.id = i) :
    superseded tbl jobId e
      = (idRows tbl jobId i).any (fun e2 => decide (e.index < e2.index)) := by
  unfold superseded idRows
  rw [List.any_filter]
  apply any_congr_mem
  intro e2 _
  cases hp2 : e2.payload with
  | none =>
    apply bool_eq_of_iff
    simp [matchesJob, hp2, hpay]
  | some d2 =>
    apply bool_eq_of_iff
    simp only [matchesJob, allocIdOf, hp2, hpay, hid, Option.map_some',
      Bool.and_eq_true, beq_iff_eq, Option.some.injEq, decide_eq_true_eq]
    tauto

lemma eq_of_mem_pairwise_index {l : List EventRow}
    (hp : l.Pairwise (fun a b => a.index ≠ b.index))
    {a b : EventRow} (ha : a ∈ l) (hb : b ∈ l) (hab : a.index = b.index) :
    a = b := by
  induction l with
  | nil => cases ha
  | cons x xs ih =>
    obtain ⟨hx, hxs⟩ := List.pairwise_cons.mp hp
    rcases List.mem_cons.mp ha with rfl | ha2
    · rcases List.mem_cons.mp hb with rfl | hb2
      · rfl
      · exact absurd hab (hx b hb2)
    · rcases List.mem_cons.mp hb with rfl | hb2
      · exact absurd hab.symm (hx a ha2)
      · exact ih hxs ha2 hb2

lemma exists_max_index :
    ∀ {l : EventTable}, l ≠ [] → ∃ m ∈ l, ∀ x ∈ l, x.index ≤ m.index := by
  intro l
  induction l with
  | nil => intro h; exact absurd rfl h
  | cons a t ih =>
    intro _
    cases t with
    | nil =>
      refine ⟨a, by simp, ?_⟩
      intro x hx
      rcases List.mem_singleton.mp hx with rfl
      exact le_refl _
    | cons b t2 =>
      obtain ⟨m, hm, hmax⟩ := ih (by simp)
      by_cases hle : a.index ≤ m.index
      · refine ⟨m, List.mem_cons_of_mem a hm, ?_⟩
        intro x hx
        rcases List.mem_cons.mp hx with rfl | hx2
        · exact hle
        · exact hmax x hx2
      · refine ⟨a, by simp, ?_⟩
        intro x hx
        rcases List.mem_cons.mp hx with rfl | hx2
        · exact le_refl _
        · exact le_trans (hmax x hx2) (le_of_not_le hle)

lemma filter_eq_singleton_of {l : List EventRow} {q : EventRow → Bool}
    {m : EventRow} (hm : m ∈ l) (hqm : q m = true)
    (huniq : ∀ x ∈ l, q x = true → x = m) (hcount : l.count m = 1) :
    l.filter q = [m] := by
  induction l with
  | nil => cases hm
  | cons a t ih =>
    by_cases ham : a = m
    · subst ham
      rw [List.count_cons_self] at hcount
      have hc0 : t.count a = 0 := by omega
      have hnot : a ∉ t := by
        intro hmem
        have := List.count_pos_iff.mpr hmem
        omega
      rw [List.filter_cons, if_pos hqm]
      have : t.filter q = [] := by
        rw [List.filter_eq_nil_iff]
        intro x hx hqx
        exact hnot ((huniq x (List.mem_cons_of_mem a hx) hqx) ▸ hx)
      rw [this]
    · have hqa : ¬ q a = true := fun h => ham (huniq a (by simp) h)
      rw [List.filter_cons, if_neg hqa]
      have hm2 : m ∈ t := by
        rcases List.mem_cons.mp hm with h | h
        · exact absurd h.symm ham
        · exact h
      have hcount2 : t.count m = 1 := by
        rw [List.count_cons_of_ne (fun h => ham h.symm)] at hcount
        exact hcount
      exact ih hm2 (fun x hx hqx => huniq x (List.mem_cons_of_mem a hx) hqx) hcount2

lemma perm_singleton_eq {β : Type} {l : List β} {a : β}
    (h : List.Perm l [a]) : l = [a] := by
  obtain ⟨b, rfl⟩ := List.length_eq_one.mp (by simpa using h.length_eq)
  have hb : b = a := by
    have := h.mem_iff.mp (by simp : b ∈ [b])
    simpa using this
  rw [hb]

/-- The latest-per-identity filter, restricted to one identity, keeps
exactly the matching event with the maximum index. -/
lemma idRows_latest_filter {tbl : EventTable} {jobId i : String}
    (hdist : tbl.Pairwise (fun a b => a.index ≠ b.index))
    (hne : idRows tbl jobId i ≠ []) :
    ∃ emax, emax ∈ idRows tbl jobId i ∧
      (∀ x ∈ idRows tbl jobId i, x.index ≤ emax.index) ∧
      tbl.filter (fun e => (matchesJob jobId e && !superseded tbl jobId e)
          && ((docGet e).id == i)) = [emax] := by
  obtain ⟨emax, hmem, hmax⟩ := exists_max_index hne
  have hSip : (idRows tbl jobId i).Pairwise (fun a b => a.index ≠ b.index) :=
    hdist.filter _
  refine ⟨emax, hmem, hmax, ?_⟩
  have hpred : ∀ a ∈ tbl,
      ((matchesJob jobId a && !superseded tbl jobId a) && ((docGet a).id == i))
        = ((!((idRows tbl jobId i).any (fun e2 => decide (a.index < e2.index))))
            && (matchesJob jobId a && (allocIdOf a == some i))) := by
    intro a _
    cases hpa : a.payload with
    | none =>
      apply bool_eq_of_iff
      simp [matchesJob, hpa]
    | some d =>
      by_cases hid : d.id = i
      · rw [superseded_eq_any_gt hpa hid]
        apply bool_eq_of_iff
        simp only [docGet_of_payload hpa, allocIdOf, hpa, Option.map_some', hid,
          Bool.and_eq_true, beq_iff_eq, Bool.not_eq_true']
        tauto
      · apply bool_eq_of_iff
        simp only [docGet_of_payload hpa, allocIdOf, hpa, Option.map_some',
          Bool.and_eq_true, beq_iff_eq, Option.some.injEq]
        constructor
        · intro hcon
          exact absurd hcon.2 hid
        · intro hcon
          exact absurd hcon.2.2 hid
  rw [List.filter_congr hpred, ← List.filter_filter]
  have hid_eq : List.filter (fun e => matchesJob jobId e && (allocIdOf e == some i)) tbl
      = idRows tbl jobId i := rfl
  rw [hid_eq]
  apply filter_eq_singleton_of
  · exact hmem
  · simp only [Bool.not_eq_true', List.any_eq_false, decide_eq_true_eq]
    intro x hx
    exact not_lt.mpr (hmax x hx)
  · intro x hx hqx
    simp only [Bool.not_eq_true', List.any_eq_false, decide_eq_true_eq] at hqx
    have hle1 : x.index ≤ emax.index := hmax x hx
    have hle2 : emax.index ≤ x.index := not_lt.mp (hqx emax hmem)
    exact eq_of_mem_pairwise_index hSip hx hmem (le_antisymm hle1 hle2)
  · have hnodup : (idRows tbl jobId i).Nodup :=
      hSip.imp fun hR hab => hR (congrArg EventRow.index hab)
    exact List.count_eq_one_of_mem hnodup hmem

end LatestLemmas

/-- Claim C1: under the documented invariant that event indices are unique,
the latest-per-identity projection returns, for each distinct allocation
identity appearing in matching allocation-update events, exactly one
snapshot — the one of the event with the maximum index for that identity and
job — and every returned snapshot comes from an event that no other matching
event of the same identity supersedes with a strictly greater index. -/
theorem latest_wins (tbl : EventTable) (jobId : String) (res : List AllocDoc)
    (hdist : tbl.Pairwise (fun a b => a.index ≠ b.index))
    (hok : GetLatestEventAllocationByJobId tbl jobId = .ok res) :
    (∀ i : String,
       (∃ e0 ∈ tbl, matchesJob jobId e0 = true ∧ allocIdOf e0 = some i) →
       ∃ e ∈ tbl, matchesJob jobId e = true ∧ allocIdOf e = some i ∧
         (∀ e2 ∈ tbl, matchesJob jobId e2 = true → allocIdOf e2 = some i →
            e2.index ≤ e.index) ∧
         res.filter (fun d => d.id == i) = [docGet e]) ∧
    (∀ d ∈ res, ∃ e ∈ tbl, matchesJob jobId e = true ∧ e.payload = some d ∧
       ∀ e2 ∈ tbl, matchesJob jobId e2 = true → allocIdOf e2 = allocIdOf e →
         e2.index ≤ e.index) := by
  have hlat : GetLatestEventAllocationByJobId tbl jobId
      = parseRows (List.insertionSort allocOrder
          (tbl.filter (fun e => matchesJob jobId e && !superseded tbl jobId e))) := by
    simp only [GetLatestEventAllocationByJobId, getEventAllocationByJobId]
  rw [hlat] at hok
  obtain ⟨hres, hall⟩ := parseRows_ok hok
  have hperm := List.perm_insertionSort allocOrder
    (tbl.filter (fun e => matchesJob jobId e && !superseded tbl jobId e))
  constructor
  · rintro i ⟨e0, he0, hm0, hid0⟩
    have hne : idRows tbl jobId i ≠ [] := by
      have hmem0 : e0 ∈ idRows tbl jobId i := by
        apply List.mem_filter.mpr
        exact ⟨he0, by simp [hm0, hid0]⟩
      intro hnil
      rw [hnil] at hmem0
      cases hmem0
    obtain ⟨emax, hmem, hmax, hfilter⟩ := idRows_latest_filter hdist hne
    obtain ⟨hmaxtbl, hmaxpred⟩ := List.mem_filter.mp hmem
    simp only [Bool.and_eq_true, beq_iff_eq] at hmaxpred
    refine ⟨emax, hmaxtbl, hmaxpred.1, hmaxpred.2, ?_, ?_⟩
    · intro e2 he2 hm2 hid2
      exact hmax e2 (List.mem_filter.mpr ⟨he2, by simp [hm2, hid2]⟩)
    · rw [hres, List.filter_map]
      have hLf : (tbl.filter
            (fun e => matchesJob jobId e && !superseded tbl jobId e)).filter
              ((fun d => d.id == i) ∘ docGet) = [emax] := by
        rw [List.filter_filter]
        have hswap : ∀ a ∈ tbl,
            (((fun d => d.id == i) ∘ docGet) a
                && (matchesJob jobId a && !superseded tbl jobId a))
              = ((matchesJob jobId a && !superseded tbl jobId a)
                  && ((docGet a).id == i)) := by
          intro a _
          exact Bool.and_comm _ _
        rw [List.filter_congr hswap]
        exact hfilter
      have hfperm := hperm.filter ((fun d => d.id == i) ∘ docGet)
      rw [hLf] at hfperm
      rw [perm_singleton_eq hfperm]
      rfl
  · intro d hd
    rw [hres] at hd
    obtain ⟨e, he, hde⟩ := List.mem_map.mp hd
    have heL := hperm.mem_iff.mp he
    obtain ⟨hetbl, hepred⟩ := List.mem_filter.mp heL
    have hpr : matchesJob jobId e = true ∧ superseded tbl jobId e = false := by
      simpa [Bool.and_eq_true, Bool.not_eq_true'] using hepred
    obtain ⟨dp, hdp, _⟩ := matchesJob_payload hpr.1
    have hdd : dp = d := by
      rw [docGet_of_payload hdp] at hde
      exact hde
    subst hdd
    refine ⟨e, hetbl, hpr.1, hdp, ?_⟩
    intro e2 he2 hm2 hideq
    have hany : (idRows tbl jobId dp.id).any
        (fun e2 => decide (e.index < e2.index)) = false := by
      rw [← superseded_eq_any_gt hdp rfl]
      exact hpr.2
    have he2S : e2 ∈ idRows tbl jobId dp.id := by
      apply List.mem_filter.mpr
      refine ⟨he2, ?_⟩
      have hida : allocIdOf e = some dp.id := by
        simp [allocIdOf, hdp]
      simp only [Bool.and_eq_true, hm2, true_and, beq_iff_eq]
      rw [hideq, hida]
    have := List.any_eq_false.mp hany e2 he2S
    simp only [decide_eq_true_eq] at this
    exact not_lt.mp this

/-- Concrete latest-wins scenario from the spec: three allocation-update
events for the same allocation identity and job with indices 10, 20, 15. -/
def c1Doc10 : AllocDoc := ⟨"a", "j", 100, true⟩

def c1Doc20 : AllocDoc := ⟨"a", "j", 200, true⟩

def c1Doc15 : AllocDoc := ⟨"a", "j", 150, true⟩

def c1Row10 : EventRow :=
  ⟨mkUid "Allocation" "AllocationUpdated" "" [] 10 (some c1Doc10),
   "Allocation", "AllocationUpdated", "", [], 10, some c1Doc10, false⟩

def c1Row20 : EventRow :=
  ⟨mkUid "Allocation" "AllocationUpdated" "" [] 20 (some c1Doc20),
   "Allocation", "AllocationUpdated", "", [], 20, some c1Doc20, false⟩

def c1Row15 : EventRow :=
  ⟨mkUid "Allocation" "AllocationUpdated" "" [] 15 (some c1Doc15),
   "Allocation", "AllocationUpdated", "", [], 15, some c1Doc15, false⟩

def c1Table : EventTable := [c1Row10, c1Row20, c1Row15]

/-- Claim C1 witness: on the spec's 10/20/15 example the latest view is
exactly the snapshot of the index-20 event. -/
theorem latest_wins_witness :
    ∃ e ∈ c1Table, matchesJob "j" e = true ∧ allocIdOf e = some "a" ∧
      (∀ e2 ∈ c1Table, matchesJob "j" e2 = true → allocIdOf e2 = some "a" →
        e2.index ≤ e.index) ∧
      ([c1Doc20] : List AllocDoc).filter (fun d => d.id == "a") = [docGet e] :=
  (latest_wins c1Table "j" [c1Doc20] (by decide) rfl).1 "a"
    ⟨c1Row10, by decide, by decide, by decide⟩

/-! ### Loki log aggregator

Translation of `runService.LokiQueryRange` (`JobLogs` and `RunLogs` call it
with different selector strings, which only influence the backend's
replies).  The backend — one HTTP round trip including status check, JSON
decoding and the result-type check — is abstracted as a function from the
`from` cursor (nanosecond timestamp) to either an error (transport failure,
non-2xx status with its body, or a decode failure) or the decoded stream
list.  The unbounded `for` loop is run on explicit fuel: `none` means the
fuel was exhausted before the function returned.  The driver also counts the
number of backend page requests issued. -/

/-- One aggregated log line (`domain.LokiLine`). -/
structure LokiLine where
  time : Nat
  text : String
deriving DecidableEq

/-- Aggregated output (`domain.LokiOutput`). -/
structure LokiOutput where
  stdout : List LokiLine
  stderr : List LokiLine
deriving DecidableEq

/-- Combined line count `len(output.Stdout) + len(output.Stderr)`. -/
def LokiOutput.total (o : LokiOutput) : Nat := o.stdout.length + o.stderr.length

/-- One entry of a Loki stream. -/
structure LokiEntry where
  ts : Nat
  line : String
deriving DecidableEq

/-- One Loki stream: a label set and its ordered entries. -/
structure LokiStream where
  labels : List (String × String)
  entries : List LokiEntry
deriving DecidableEq

/-- `stream.Labels.Map()[k]` of the Go code. -/
def lookupLabel (labels : List (String × String)) (k : String) : Option String :=
  (labels.find? (fun p => p.1 == k)).map (fun p => p.2)

/-- `ok && source == "stderr"` of the Go code. -/
def isStderrStream (s : LokiStream) : Bool :=
  lookupLabel s.labels "source" == some "stderr"

/-- `linesToFetch := 10000`, the overall cap of the aggregation. -/
def linesToFetch : Nat := 10000

/-- `limit int64 = 5000`, the per-call limit sent to the backend. -/
def lokiLimit : Nat := 5000

/-- Append one entry to the side selected by the stream's classification:
the body of the inner `for _, entry := range stream.Entries` loop. -/
def appendLine (isStderr : Bool) (out : LokiOutput) (en : LokiEntry) : LokiOutput :=
  if isStderr then { out with stderr := out.stderr ++ [⟨en.ts, en.line⟩] }
  else { out with stdout := out.stdout ++ [⟨en.ts, en.line⟩] }

/-- The inner `for _, entry := range stream.Entries` loop: append each entry
to the stream's side and return early (second component `true`) as soon as
the combined total reaches the cap. -/
def procEntries (cap : Nat) (isStderr : Bool) :
    LokiOutput → List LokiEntry → LokiOutput × Bool
  | out, [] => (out, false)
  | out, en :: es =>
    if cap ≤ (appendLine isStderr out en).total then (appendLine isStderr out en, true)
    else procEntries cap isStderr (appendLine isStderr out en) es

/-- Result of processing the streams of one backend response: the function
either returned (`ret`) or finished the response and loops again with an
updated cursor (`next`). -/
inductive StepRes where
  | ret (out : LokiOutput)
  | next (out : LokiOutput) (cursor : Nat)
deriving DecidableEq

/-- The `for _, stream := range streams` loop.  After a stream's entries are
consumed: if the stream returned at least `lim` entries the cursor advances
to the timestamp of its last entry and the *next stream of the same
response* is processed; otherwise the function returns immediately, leaving
any remaining streams of the response unprocessed.  (The `getD` default is
unreachable for `lim > 0`, where Go would index a nonempty slice.) -/
def procStreams (cap lim : Nat) :
    LokiOutput → Nat → List LokiStream → StepRes
  | out, cursor, [] => .next out cursor
  | out, cursor, s :: ss =>
    match procEntries cap (isStderrStream s) out s.entries with
    | (out', true) => .ret out'
    | (out', false) =>
      if lim ≤ s.entries.length then
        procStreams cap lim out'
          ((s.entries.getLast?.map (fun en => en.ts)).getD cursor) ss
      else .ret out'

/-- The outer `for` loop of `LokiQueryRange`, on fuel.  The result carries
the output and error exactly as the Go function returns them (every `return`
statement of the source returns the accumulator `output` alongside the
error), plus the number of backend page requests issued. -/
def lokiLoop (backend : Nat → Except String (List LokiStream)) (cap lim : Nat) :
    Nat → Nat → LokiOutput → Nat → Option (LokiOutput × Option String × Nat)
  | 0, _, _, _ => none
  | fuel + 1, cursor, out, calls =>
    match backend cursor with
    | .error s => some (out, some s, calls + 1)
    | .ok streams =>
      if streams.isEmpty then some (out, none, calls + 1)
      else
        match procStreams cap lim out cursor streams with
        | .ret out' => some (out', none, calls + 1)
        | .next out' cursor' => lokiLoop backend cap lim fuel cursor' out' (calls + 1)

/-- Translation of `LokiQueryRange`: cursor starts at epoch zero and the
accumulator starts as the empty-but-non-null output. -/
def LokiQueryRange (backend : Nat → Except String (List LokiStream))
    (fuel : Nat) : Option (LokiOutput × Option String × Nat) :=
  lokiLoop backend linesToFetch lokiLimit fuel 0 ⟨[], []⟩ 0

section LokiLemmas

lemma appendLine_total (isStderr : Bool) (out : LokiOutput) (en : LokiEntry) :
    (appendLine isStderr out en).total = out.total + 1 := by
  cases isStderr <;> simp [appendLine, LokiOutput.total] <;> omega

/-- Counting behaviour of the entry loop: starting strictly below the cap,
the loop either fills up to exactly the cap and returns early, or appends
everything and reports no early return. -/
lemma procEntries_spec (cap : Nat) (isStderr : Bool) :
    ∀ (es : List LokiEntry) (out : LokiOutput), out.total < cap →
      (cap ≤ out.total + es.length →
        (procEntries cap isStderr out es).1.total = cap ∧
        (procEntries cap isStderr out es).2 = true) ∧
      (out.total + es.length < cap →
        (procEntries cap isStderr out es).1.total = out.total + es.length ∧
        (procEntries cap isStderr out es).2 = false) := by
  intro es
  induction es with
  | nil =>
    intro out hlt
    constructor
    · intro hge
      simp at hge
      omega
    · intro _
      exact ⟨rfl, rfl⟩
  | cons en es ih =>
    intro out hlt
    simp only [procEntries]
    have htot := appendLine_total isStderr out en
    by_cases hstop : cap ≤ (appendLine isStderr out en).total
    · rw [if_pos hstop]
      rw [htot] at hstop
      constructor
      · intro _
        exact ⟨by simp [htot]; omega, rfl⟩
      · intro hless
        simp only [List.length_cons] at hless
        omega
    · rw [if_neg hstop]
      rw [htot] at hstop
      have hlt1 : (appendLine isStderr out en).total < cap := by omega
      have hlt' := ih (appendLine isStderr out en) hlt1
      constructor
      · intro hge
        have hge' : cap ≤ (appendLine isStderr out en).total + es.length := by
          rw [htot]
          simp only [List.length_cons] at hge
          omega
        exact ⟨(hlt'.1 hge').1, (hlt'.1 hge').2⟩
      · intro hless
        have hless' : (appendLine isStderr out en).total + es.length < cap := by
          rw [htot]
          simp only [List.length_cons] at hless
          omega
        refine ⟨?_, (hlt'.2 hless').2⟩
        rw [(hlt'.2 hless').1, htot]
        simp only [List.length_cons]
        omega

/-- Content behaviour of the entry loop when the cap is not exceeded: all
entries are appended, in order, to the side selected by `isStderr`. -/
lemma procEntries_content (cap : Nat) (isStderr : Bool) :
    ∀ (es : List LokiEntry) (out : LokiOutput),
      out.total + es.length ≤ cap →
      (procEntries cap isStderr out es).1
        = if isStderr
          then { out with stderr := out.stderr ++ es.map (fun en => LokiLine.mk en.ts en.line) }
          else { out with stdout := out.stdout ++ es.map (fun en => LokiLine.mk en.ts en.line) } := by
  intro es
  induction es with
  | nil =>
    intro out _
    cases isStderr <;> simp [procEntries]
  | cons en es ih =>
    intro out hle
    simp only [procEntries]
    have htot := appendLine_total isStderr out en
    by_cases hstop : cap ≤ (appendLine isStderr out en).total
    · rw [if_pos hstop]
      rw [htot] at hstop
      simp only [List.length_cons] at hle
      have hnil : es = [] := by
        cases es with
        | nil => rfl
        | cons x xs => simp at hle; omega
      subst hnil
      cases isStderr <;> simp [appendLine]
    · rw [if_neg hstop]
      rw [htot] at hstop
      have := ih (appendLine isStderr out en)
        (by rw [htot]; simp only [List.length_cons] at hle; omega)
      rw [this]
      cases isStderr <;> simp [appendLine]

lemma procEntries_pair_false {cap : Nat} {isStderr : Bool} {es : List LokiEntry}
    {out : LokiOutput} (hlt : out.total < cap) (hless : out.total + es.length < cap) :
    procEntries cap isStderr out es = ((procEntries cap isStderr out es).1, false) := by
  have h := ((procEntries_spec cap isStderr es out hlt).2 hless).2
  rw [← h]

lemma procEntries_pair_true {cap : Nat} {isStderr : Bool} {es : List LokiEntry}
    {out : LokiOutput} (hlt : out.total < cap) (hge : cap ≤ out.total + es.length) :
    procEntries cap isStderr out es = ((procEntries cap isStderr out es).1, true) := by
  have h := ((procEntries_spec cap isStderr es out hlt).1 hge).2
  rw [← h]

/-- A stream whose entry loop hit the cap makes the whole call return. -/
lemma procStreams_cons_capped {cap lim : Nat} {out out1 : LokiOutput}
    {cursor : Nat} {s : LokiStream} {ss : List LokiStream}
    (hpe : procEntries cap (isStderrStream s) out s.entries = (out1, true)) :
    procStreams cap lim out cursor (s :: ss) = .ret out1 := by
  simp only [procStreams, hpe]

/-- A stream that returned at least `lim` entries advances the cursor to its
last entry's timestamp and processing continues with the remaining streams
of the same response. -/
lemma procStreams_cons_continue {cap lim : Nat} {out out1 : LokiOutput}
    {cursor : Nat} {s : LokiStream} {ss : List LokiStream}
    (hpe : procEntries cap (isStderrStream s) out s.entries = (out1, false))
    (hfull : lim ≤ s.entries.length) :
    procStreams cap lim out cursor (s :: ss)
      = procStreams cap lim out1
          ((s.entries.getLast?.map (fun en => en.ts)).getD cursor) ss := by
  simp only [procStreams, hpe]
  rw [if_pos hfull]

/-- A stream that returned fewer than `lim` entries makes the whole call
return immediately — the remaining streams `ss` are never processed. -/
lemma procStreams_cons_short {cap lim : Nat} {out out1 : LokiOutput}
    {cursor : Nat} {s : LokiStream} {ss : List LokiStream}
    (hpe : procEntries cap (isStderrStream s) out s.entries = (out1, false))
    (hshort : s.entries.length < lim) :
    procStreams cap lim out cursor (s :: ss) = .ret out1 := by
  simp only [procStreams, hpe]
  rw [if_neg (not_le.mpr hshort)]

/-- The cap invariant through the streams of one response. -/
lemma procStreams_total_le (cap lim : Nat) :
    ∀ (streams : List LokiStream) (out : LokiOutput) (cursor : Nat),
      out.total < cap →
      (∀ out', procStreams cap lim out cursor streams = .ret out' →
        out'.total ≤ cap) ∧
      (∀ out' c', procStreams cap lim out cursor streams = .next out' c' →
        out'.total < cap) := by
  intro streams
  induction streams with
  | nil =>
    intro out cursor hlt
    constructor
    · intro out' h
      cases h
    · intro out' c' h
      cases h
      exact hlt
  | cons s ss ih =>
    intro out cursor hlt
    have hspec := procEntries_spec cap (isStderrStream s) s.entries out hlt
    by_cases hge : cap ≤ out.total + s.entries.length
    · have hpe := @procEntries_pair_true cap (isStderrStream s) s.entries out hlt hge
      constructor
      · intro out' h
        rw [procStreams_cons_capped hpe] at h
        cases h
        rw [(hspec.1 hge).1]
      · intro out' c' h
        rw [procStreams_cons_capped hpe] at h
        cases h
    · have hless : out.total + s.entries.length < cap := by omega
      have hpe := @procEntries_pair_false cap (isStderrStream s) s.entries out hlt hless
      have hlt1 : (procEntries cap (isStderrStream s) out s.entries).1.total < cap := by
        rw [(hspec.2 hless).1]
        exact hless
      by_cases hfull : lim ≤ s.entries.length
      · rw [procStreams_cons_continue hpe hfull]
        exact ih _ _ hlt1
      · constructor
        · intro out' h
          rw [procStreams_cons_short hpe (not_le.mp hfull)] at h
          cases h
          exact le_of_lt hlt1
        · intro out' c' h
          rw [procStreams_cons_short hpe (not_le.mp hfull)] at h
          cases h

/-- One unfolding of the driver loop. -/
lemma lokiLoop_step (backend : Nat → Except String (List LokiStream))
    (cap lim fuel cursor calls : Nat) (out : LokiOutput) :
    lokiLoop backend cap lim (fuel + 1) cursor out calls
      = match backend cursor with
        | .error s => some (out, some s, calls + 1)
        | .ok streams =>
          if streams.isEmpty then some (out, none, calls + 1)
          else
            match procStreams cap lim out cursor streams with
            | .ret out' => some (out', none, calls + 1)
            | .next out' cursor' =>
              lokiLoop backend cap lim fuel cursor' out' (calls + 1) := rfl

/-- Step equation when the page request fails. -/
lemma lokiLoop_error {backend : Nat → Except String (List LokiStream)}
    {cap lim fuel cursor calls : Nat} {out : LokiOutput} {s : String}
    (hb : backend cursor = .error s) :
    lokiLoop backend cap lim (fuel + 1) cursor out calls
      = some (out, some s, calls + 1) := by
  rw [lokiLoop_step, hb]

/-- Step equation when the backend returns zero streams. -/
lemma lokiLoop_empty {backend : Nat → Except String (List LokiStream)}
    {cap lim fuel cursor calls : Nat} {out : LokiOutput}
    (hb : backend cursor = .ok []) :
    lokiLoop backend cap lim (fuel + 1) cursor out calls
      = some (out, none, calls + 1) := by
  rw [lokiLoop_step, hb]
  rfl

/-- Step equation when the backend returns a nonempty stream list. -/
lemma lokiLoop_go {backend : Nat → Except String (List LokiStream)}
    {cap lim fuel cursor calls : Nat} {out : LokiOutput}
    {s0 : LokiStream} {ss0 : List LokiStream}
    (hb : backend cursor = .ok (s0 :: ss0)) :
    lokiLoop backend cap lim (fuel + 1) cursor out calls
      = match procStreams cap lim out cursor (s0 :: ss0) with
        | .ret out' => some (out', none, calls + 1)
        | .next out' cursor' =>
          lokiLoop backend cap lim fuel cursor' out' (calls + 1) := by
  rw [lokiLoop_step, hb]
  rfl

/-- The cap invariant through the whole loop. -/
lemma lokiLoop_total_le (backend : Nat → Except String (List LokiStream))
    (cap lim : Nat) :
    ∀ (fuel cursor calls : Nat) (out o : LokiOutput) (e : Option String)
      (c : Nat), out.total < cap →
      lokiLoop backend cap lim fuel cursor out calls = some (o, e, c) →
      o.total ≤ cap := by
  intro fuel
  induction fuel with
  | zero =>
    intro cursor calls out o e c _ h
    cases h
  | succ n ih =>
    intro cursor calls out o e c hlt h
    cases hb : backend cursor with
    | error s =>
      rw [lokiLoop_error hb] at h
      cases h
      exact le_of_lt hlt
    | ok streams =>
      cases streams with
      | nil =>
        rw [lokiLoop_empty hb] at h
        cases h
        exact le_of_lt hlt
      | cons s0 ss0 =>
        rw [lokiLoop_go hb] at h
        cases hps : procStreams cap lim out cursor (s0 :: ss0) with
        | ret out' =>
          rw [hps] at h
          cases h
          exact ((procStreams_total_le cap lim (s0 :: ss0) out cursor hlt).1 _ hps)
        | next out' c' =>
          rw [hps] at h
          exact ih c' (calls + 1) out' o e c
            ((procStreams_total_le cap lim (s0 :: ss0) out cursor hlt).2 _ _ hps) h

end LokiLemmas

/-! ### Synthetic backends for the pagination scenarios -/

/-- `n` synthetic entries with consecutive timestamps `start+1 .. start+n`. -/
def mkEntries (start n : Nat) : List LokiEntry :=
  (List.range n).map (fun k => ⟨start + k + 1, "line"⟩)

lemma mkEntries_length (start n : Nat) : (mkEntries start n).length = n := by
  simp [mkEntries]

lemma mkEntries_getLast? (start : Nat) {n : Nat} (h : n ≠ 0) :
    (mkEntries start n).getLast? = some ⟨start + n, "line"⟩ := by
  unfold mkEntries
  rw [List.getLast?_eq_getElem?]
  have hlen : ((List.range n).map
      (fun k => (⟨start + k + 1, "line"⟩ : LokiEntry))).length = n := by simp
  rw [hlen, List.getElem?_map, List.getElem?_range (by omega)]
  have harith : start + (n - 1) + 1 = start + n := by omega
  simp [harith]

/-- A full page of 5000 entries with timestamps 1..5000. -/
def page1 : LokiStream := ⟨[], mkEntries 0 5000⟩

/-- A second full page: timestamps 5001..10000. -/
def page2 : LokiStream := ⟨[], mkEntries 5000 5000⟩

/-- A third full page: timestamps 10001..15000. -/
def page3 : LokiStream := ⟨[], mkEntries 10000 5000⟩

/-- Synthetic backend serving 15000 lines across three full pages. -/
def synth15k : Nat → Except String (List LokiStream) := fun cursor =>
  if cursor = 0 then .ok [page1]
  else if cursor = 5000 then .ok [page2]
  else if cursor = 10000 then .ok [page3]
  else .ok []

/-- The short second page of the 6000-line scenario: timestamps 5001..6000. -/
def shortPage : LokiStream := ⟨[], mkEntries 5000 1000⟩

/-- Synthetic backend serving 6000 lines: one full page then a short one. -/
def synth6k : Nat → Except String (List LokiStream) := fun cursor =>
  if cursor = 0 then .ok [page1]
  else if cursor = 5000 then .ok [shortPage]
  else .ok []

/-- A one-entry stream. -/
def c4Short : LokiStream := ⟨[], [⟨1, "only"⟩]⟩

/-- Backend whose single response carries a short stream followed by a full
stream. -/
def c4Resp : Nat → Except String (List LokiStream) := fun cursor =>
  if cursor = 0 then .ok [c4Short, page1] else .ok []

/-- Backend whose first page succeeds and whose second page fails. -/
def c9Backend : Nat → Except String (List LokiStream) := fun cursor =>
  if cursor = 0 then .ok [page1]
  else .error "Error response 500 from Loki: boom"

/-- Output accumulated after consuming `page1` from the empty output: its
5000 entries, classified as stdout. -/
def lokiOut1 : LokiOutput :=
  ⟨(mkEntries 0 5000).map (fun en => LokiLine.mk en.ts en.line), []⟩

section Scenario

lemma empty_total : (⟨[], []⟩ : LokiOutput).total = 0 := rfl

lemma page1_entries : page1.entries = mkEntries 0 5000 := rfl

lemma page1_entries_length : page1.entries.length = 5000 := by
  rw [page1_entries, mkEntries_length]

lemma lokiOut1_total : lokiOut1.total = 5000 := by
  simp [lokiOut1, LokiOutput.total, mkEntries_length]

lemma isStderr_page1 : isStderrStream page1 = false := rfl

/-- Consuming `page1` from the empty output accumulates exactly `lokiOut1`
without reaching the cap. -/
lemma procEntries_page1 :
    procEntries linesToFetch (isStderrStream page1) ⟨[], []⟩ page1.entries
      = (lokiOut1, false) := by
  have hlt : (⟨[], []⟩ : LokiOutput).total < linesToFetch := by
    rw [empty_total]
    decide
  have hless : (⟨[], []⟩ : LokiOutput).total + page1.entries.length < linesToFetch := by
    rw [empty_total, page1_entries_length]
    decide
  rw [procEntries_pair_false hlt hless]
  rw [procEntries_content linesToFetch (isStderrStream page1) page1.entries
    ⟨[], []⟩ (le_of_lt hless)]
  rw [isStderr_page1]
  simp [lokiOut1, page1_entries]

/-- Consuming the first full page advances the cursor to timestamp 5000 and
loops. -/
lemma run_page1 (backend : Nat → Except String (List LokiStream))
    (hb : backend 0 = .ok [page1]) (fuel calls : Nat) :
    lokiLoop backend linesToFetch lokiLimit (fuel + 1) 0 ⟨[], []⟩ calls
      = lokiLoop backend linesToFetch lokiLimit fuel 5000 lokiOut1 (calls + 1) := by
  rw [lokiLoop_go hb]
  have hps : procStreams linesToFetch lokiLimit ⟨[], []⟩ 0 [page1]
      = .next lokiOut1 5000 := by
    rw [procStreams_cons_continue procEntries_page1
      (by rw [page1_entries_length]; decide)]
    have hlast : page1.entries.getLast? = some ⟨5000, "line"⟩ := by
      rw [page1_entries]
      have := @mkEntries_getLast? 0 5000 (by decide)
      simpa using this
    simp [procStreams, hlast]
  rw [hps]

lemma page2_entries : page2.entries = mkEntries 5000 5000 := rfl

lemma page2_entries_length : page2.entries.length = 5000 := by
  rw [page2_entries, mkEntries_length]

lemma shortPage_entries : shortPage.entries = mkEntries 5000 1000 := rfl

lemma shortPage_entries_length : shortPage.entries.length = 1000 := by
  rw [shortPage_entries, mkEntries_length]

end Scenario

/-- Claim C3: the combined line count of the output never exceeds
`linesToFetch = 10000` for any backend behaviour, and feeding the aggregator
15000 synthetic lines across full pages yields exactly 10000 accumulated
lines in two page requests — the third page is never requested. -/
theorem loki_total_cap :
    (∀ (backend : Nat → Except String (List LokiStream)) (fuel : Nat)
        (out : LokiOutput) (err : Option String) (calls : Nat),
        LokiQueryRange backend fuel = some (out, err, calls) →
        out.total ≤ linesToFetch) ∧
    (∃ out, LokiQueryRange synth15k 3 = some (out, none, 2) ∧
        out.total = linesToFetch) := by
  constructor
  · intro backend fuel out err calls h
    exact lokiLoop_total_le backend linesToFetch lokiLimit fuel 0 0 ⟨[], []⟩
      out err calls (by rw [empty_total]; decide) h
  · refine ⟨(procEntries linesToFetch (isStderrStream page2) lokiOut1 page2.entries).1,
      ?_, ?_⟩
    · show lokiLoop synth15k linesToFetch lokiLimit 3 0 ⟨[], []⟩ 0 = _
      rw [show (3 : Nat) = 2 + 1 from rfl, run_page1 synth15k rfl 2 0]
      rw [show (2 : Nat) = 1 + 1 from rfl,
        lokiLoop_go (show synth15k 5000 = .ok (page2 :: []) from rfl)]
      have hpe := @procEntries_pair_true linesToFetch
        (isStderrStream page2) page2.entries lokiOut1
        (by rw [lokiOut1_total]; decide)
        (by rw [lokiOut1_total, page2_entries_length]; decide)
      rw [procStreams_cons_capped hpe]
    · exact ((procEntries_spec linesToFetch (isStderrStream page2) page2.entries
        lokiOut1 (by rw [lokiOut1_total]; decide)).1
        (by rw [lokiOut1_total, page2_entries_length]; decide)).1

/-- Claim C3 witness: a backend with no streams terminates after one request
with the empty output, which respects the cap. -/
theorem loki_total_cap_witness : (⟨[], []⟩ : LokiOutput).total ≤ linesToFetch :=
  loki_total_cap.1 (fun _ => .ok []) 1 ⟨[], []⟩ none 1 rfl

/-- Claim C8: within one stream processed under the cap, every entry lands in
the stderr sequence exactly when the stream's label set maps `source` to
`"stderr"`, and in the stdout sequence otherwise, appended in arrival
order. -/
theorem stream_classification (cap : Nat) (out : LokiOutput) (s : LokiStream)
    (hcap : out.total + s.entries.length ≤ cap) :
    (procEntries cap (isStderrStream s) out s.entries).1.stderr
      = out.stderr ++ (if lookupLabel s.labels "source" = some "stderr"
          then s.entries.map (fun en => LokiLine.mk en.ts en.line) else []) ∧
    (procEntries cap (isStderrStream s) out s.entries).1.stdout
      = out.stdout ++ (if lookupLabel s.labels "source" = some "stderr"
          then [] else s.entries.map (fun en => LokiLine.mk en.ts en.line)) := by
  have h := procEntries_content cap (isStderrStream s) s.entries out hcap
  by_cases hlab : lookupLabel s.labels "source" = some "stderr"
  · have hb : isStderrStream s = true := by simp [isStderrStream, hlab]
    simp only [hb, if_true] at h
    simp only [hb, h, if_pos hlab]
    exact ⟨trivial, by simp⟩
  · have hb : isStderrStream s = false := by simp [isStderrStream, hlab]
    simp only [hb, Bool.false_eq_true, if_false] at h
    simp only [hb, h, if_neg hlab]
    exact ⟨by simp, trivial⟩

/-- Stream labelled as stderr with two entries. -/
def c8Stream : LokiStream := ⟨[("source", "stderr")], [⟨1, "x"⟩, ⟨2, "y"⟩]⟩

/-- Claim C8 witness: both entries of a concrete `source=stderr` stream land
in the stderr sequence in order, and stdout stays empty. -/
theorem stream_classification_witness :
    (procEntries linesToFetch (isStderrStream c8Stream) ⟨[], []⟩ c8Stream.entries).1.stderr
      = (⟨[], []⟩ : LokiOutput).stderr
          ++ (if lookupLabel c8Stream.labels "source" = some "stderr"
              then c8Stream.entries.map (fun en => LokiLine.mk en.ts en.line) else []) ∧
    (procEntries linesToFetch (isStderrStream c8Stream) ⟨[], []⟩ c8Stream.entries).1.stdout
      = (⟨[], []⟩ : LokiOutput).stdout
          ++ (if lookupLabel c8Stream.labels "source" = some "stderr"
              then [] else c8Stream.entries.map (fun en => LokiLine.mk en.ts en.line)) :=
  stream_classification linesToFetch ⟨[], []⟩ c8Stream (by decide)

/-- Claim C4 counterexample: a response holding a short stream followed by a
full stream (5000 entries, which is at least the per-call limit) terminates
the whole call at the short stream: only one page request is issued, the
full stream's entries never reach the output, and no further query is made
even though a stream returned at least `limit` entries. -/
theorem loki_pagination_cex :
    c4Resp 0 = .ok [c4Short, page1] ∧
    lokiLimit ≤ page1.entries.length ∧
    LokiQueryRange c4Resp 3 = some (⟨[⟨1, "only"⟩], []⟩, none, 1) := by
  refine ⟨rfl, by rw [page1_entries_length]; decide, ?_⟩
  show lokiLoop c4Resp linesToFetch lokiLimit 3 0 ⟨[], []⟩ 0 = _
  rw [show (3 : Nat) = 2 + 1 from rfl,
    lokiLoop_go (show c4Resp 0 = .ok (c4Short :: [page1]) from rfl)]
  have hpe : procEntries linesToFetch (isStderrStream c4Short) ⟨[], []⟩ c4Short.entries
      = (⟨[⟨1, "only"⟩], []⟩, false) := rfl
  rw [procStreams_cons_short hpe (by decide)]

/-- Claim C4 (amended): per stream, in response order: a stream that
returned at least the per-call limit advances the cursor to its last
entry's timestamp and processing continues with the next stream of the same
response (another query is issued once every stream of the response was
full); the *first* stream that returned fewer than the limit makes the call
return immediately, skipping any remaining streams of the response.  The
6000-line scenario is consumed across exactly two page requests (5000 then
1000 lines). -/
theorem loki_pagination_per_stream :
    (∀ (cap lim : Nat) (out out1 : LokiOutput) (cursor : Nat)
        (s : LokiStream) (ss : List LokiStream),
        procEntries cap (isStderrStream s) out s.entries = (out1, false) →
        lim ≤ s.entries.length →
        procStreams cap lim out cursor (s :: ss)
          = procStreams cap lim out1
              ((s.entries.getLast?.map (fun en => en.ts)).getD cursor) ss) ∧
    (∀ (cap lim : Nat) (out out1 : LokiOutput) (cursor : Nat)
        (s : LokiStream) (ss : List LokiStream),
        procEntries cap (isStderrStream s) out s.entries = (out1, false) →
        s.entries.length < lim →
        procStreams cap lim out cursor (s :: ss) = .ret out1) ∧
    (∃ out, LokiQueryRange synth6k 3 = some (out, none, 2) ∧ out.total = 6000) := by
  refine ⟨fun cap lim out out1 cursor s ss hpe hfull =>
      procStreams_cons_continue hpe hfull,
    fun cap lim out out1 cursor s ss hpe hshort =>
      procStreams_cons_short hpe hshort, ?_⟩
  refine ⟨(procEntries linesToFetch (isStderrStream shortPage) lokiOut1
      shortPage.entries).1, ?_, ?_⟩
  · show lokiLoop synth6k linesToFetch lokiLimit 3 0 ⟨[], []⟩ 0 = _
    rw [show (3 : Nat) = 2 + 1 from rfl, run_page1 synth6k rfl 2 0]
    rw [show (2 : Nat) = 1 + 1 from rfl,
      lokiLoop_go (show synth6k 5000 = .ok (shortPage :: []) from rfl)]
    have hpe := @procEntries_pair_false linesToFetch
      (isStderrStream shortPage) shortPage.entries lokiOut1
      (by rw [lokiOut1_total]; decide)
      (by rw [lokiOut1_total, shortPage_entries_length]; decide)
    rw [procStreams_cons_short hpe
      (by rw [shortPage_entries_length]; decide)]
  · have h := ((procEntries_spec linesToFetch (isStderrStream shortPage)
      shortPage.entries lokiOut1 (by rw [lokiOut1_total]; decide)).2
      (by rw [lokiOut1_total, shortPage_entries_length]; decide)).1
    rw [h, lokiOut1_total, shortPage_entries_length]

/-- Claim C4 (amended) witness: the short stream of the concrete two-stream
response makes the call return immediately with only its single line,
skipping the full stream behind it. -/
theorem loki_pagination_per_stream_witness :
    procStreams linesToFetch lokiLimit ⟨[], []⟩ 0 (c4Short :: [page1])
      = .ret ⟨[⟨1, "only"⟩], []⟩ :=
  loki_pagination_per_stream.2.1 linesToFetch lokiLimit ⟨[], []⟩
    ⟨[⟨1, "only"⟩], []⟩ 0 c4Short [page1] rfl (by decide)

/-- Shared evaluation of the failing-second-page scenario. -/
lemma c9_run : lokiLoop c9Backend linesToFetch lokiLimit 3 0 ⟨[], []⟩ 0
    = some (lokiOut1, some "Error response 500 from Loki: boom", 2) := by
  rw [show (3 : Nat) = 2 + 1 from rfl, run_page1 c9Backend rfl 2 0]
  rw [show (2 : Nat) = 1 + 1 from rfl]
  exact lokiLoop_error rfl

/-- Claim C9 counterexample: when the second page request fails after a
successful first page, the aggregation stops with the backend's error — but
the 5000 lines accumulated from the first page are returned alongside the
error (every `return` of the Go function returns the accumulator), not
discarded as the claim states. -/
theorem loki_partial_results_cex :
    ∃ out, LokiQueryRange c9Backend 3
        = some (out, some "Error response 500 from Loki: boom", 2) ∧
      out.total = 5000 := ⟨lokiOut1, c9_run, lokiOut1_total⟩

/-- Claim C9 (amended): a failed page request aborts the aggregation
immediately with the backend's error (carrying its status and body), without
retrying — and the partial output accumulated so far is returned alongside
the error rather than discarded. -/
theorem loki_error_aborts :
    (∀ (backend : Nat → Except String (List LokiStream))
        (cap lim fuel cursor calls : Nat) (out : LokiOutput) (s : String),
        backend cursor = .error s →
        lokiLoop backend cap lim (fuel + 1) cursor out calls
          = some (out, some s, calls + 1)) ∧
    (∃ out, LokiQueryRange c9Backend 3
        = some (out, some "Error response 500 from Loki: boom", 2) ∧
      out.total = 5000) := by
  constructor
  · intro backend cap lim fuel cursor calls out s herr
    exact lokiLoop_error herr
  · exact ⟨lokiOut1, c9_run, lokiOut1_total⟩

/-- Claim C9 (amended) witness: a backend that fails at once returns the
empty accumulator together with its error after a single request. -/
theorem loki_error_aborts_witness :
    lokiLoop (fun _ => .error "boom") linesToFetch lokiLimit 1 0 ⟨[], []⟩ 0
      = some (⟨[], []⟩, some "boom", 1) :=
  loki_error_aborts.1 (fun _ => .error "boom") linesToFetch lokiLimit 0 0 0
    ⟨[], []⟩ "boom" rfl

/-! ### Run cancellation (claim C5) -/

/-- One RunOutput row: at most one per job in practice; `value` is the
opaque terminal result payload. -/
structure RunOutputRow where
  jobId : String
  value : String
deriving DecidableEq

/-- The `run_output` table. -/
abbrev RunOutputTable := List RunOutputRow

/-- Modelled from the spec: `runOutputRepository.Delete` (its implementation
is not among the sources) — "RunOutput: at most one per Run ... Deleted (not
merely marked)": remove every output row of the job. -/
def deleteRunOutput (db : RunOutputTable) (jobId : String) : RunOutputTable :=
  db.filter (fun r => !(r.jobId == jobId))

/-- Translation of `runService.Cancel`.  The transactional wrapper
`BeginFunc` is modelled from the spec ("either all writes within the unit
commit or none do"): the body's writes take effect only when the body
returns no error.  The body deletes the run's output and then calls
`JobsDeregister(id, purge := false)`; the orchestrator client is a
parameter, and a deregister failure aborts the whole unit. -/
def Cancel (dereg : String → Bool → Except String Unit)
    (db : RunOutputTable) (jobId : String) : RunOutputTable × Option String :=
  match dereg jobId false with
  | .error s => (db, some s)
  | .ok _ => (deleteRunOutput db jobId, none)

/-- Claim C5: cancellation is all-or-nothing.  If the non-forceful
deregister call fails, `Cancel` returns the error and the output table is
unchanged (any previously existing RunOutput row still exists); if `Cancel`
returns no error, the deregister call succeeded with `purge = false`, no
output row of the job remains, and every other row is untouched. -/
theorem cancel_all_or_nothing (dereg : String → Bool → Except String Unit)
    (db : RunOutputTable) (jobId : String) :
    (∀ s, dereg jobId false = .error s → Cancel dereg db jobId = (db, some s)) ∧
    ((Cancel dereg db jobId).2 = none →
        dereg jobId false = .ok () ∧
        (∀ r ∈ (Cancel dereg db jobId).1, r.jobId ≠ jobId) ∧
        ∀ r ∈ db, r.jobId ≠ jobId → r ∈ (Cancel dereg db jobId).1) := by
  constructor
  · intro s hs
    simp [Cancel, hs]
  · intro hnone
    cases hd : dereg jobId false with
    | error s =>
      rw [show Cancel dereg db jobId = (db, some s) from by simp [Cancel, hd]] at hnone
      cases hnone
    | ok u =>
      cases u
      refine ⟨rfl, ?_, ?_⟩
      · intro r hr
        rw [show Cancel dereg db jobId = (deleteRunOutput db jobId, none) from by
          simp [Cancel, hd]] at hr
        have := List.of_mem_filter hr
        simpa using this
      · intro r hr hne
        rw [show Cancel dereg db jobId = (deleteRunOutput db jobId, none) from by
          simp [Cancel, hd]]
        exact List.mem_filter.mpr ⟨hr, by simpa using hne⟩

/-- Claim C5 witness: with a failing orchestrator the concrete output row
survives together with the error; with a succeeding orchestrator no output
row of the job remains. -/
theorem cancel_all_or_nothing_witness :
    Cancel (fun _ _ => .error "deregister failed") [⟨"job1", "out"⟩] "job1"
        = ([⟨"job1", "out"⟩], some "deregister failed") ∧
    ∀ r ∈ (Cancel (fun _ _ => .ok ()) [⟨"job1", "out"⟩] "job1").1,
      r.jobId ≠ "job1" :=
  ⟨(cancel_all_or_nothing (fun _ _ => .error "deregister failed")
      [⟨"job1", "out"⟩] "job1").1 "deregister failed" rfl,
   ((cancel_all_or_nothing (fun _ _ => .ok ())
      [⟨"job1", "out"⟩] "job1").2 rfl).2.1⟩

end Cicero

